import Mathlib

/-!
Shallow embedding of the reaction state engine of `src/bot.py`
(Post-Reaction-Bot): vote sets, the single-choice toggle of
`handle_callback`, the registration fragment of `add_reaction_buttons`,
the label rendering of `get_keyboard`, the media-group deduplication
ledger, and the retention pruning of `prune_bot_data`.

Dictionaries are modelled as association lists (insertion-ordered, as in
CPython), `set()` of user ids as `Finset Int`, and per-post vote dicts
`{emoji: set(user_ids)}` as total functions `Symbol → Finset Int` whose
operations only touch the fixed key set `REACTIONS` (the dicts in the
source are only ever created with exactly those keys).
-/

namespace PostReactionBot

/-- A reaction symbol (an emoji string). -/
abbrev Symbol := String

/-- `REACTIONS = ["👍", "👎", "🔥", "❤️"]` — bot.py line 28. -/
def REACTIONS : List Symbol := ["👍", "👎", "🔥", "❤️"]

/-- A per-post vote structure `{emoji: set(user_ids)}`: each symbol's set of
voter ids.  The source dict always has exactly the keys `REACTIONS`; we model
it as a total function whose values outside `REACTIONS` are never touched. -/
abbrev VoteSet := Symbol → Finset Int

/-- `{emoji: set() for emoji in REACTIONS}` — bot.py lines 222 / 290. -/
def emptyVoteSet : VoteSet := fun _ => ∅

/-- The toggle algorithm of `handle_callback`, bot.py lines 295–306, acting on
one post's vote dict: first the removal loop (`for emoji, user_set in
reactions_map.items(): if emoji != selected_emoji and user_id in user_set:
user_set.remove(user_id)`), then the toggle on `selected_emoji` together with
the notification text. -/
def toggleVote (vs : VoteSet) (uid : Int) (sel : Symbol) : VoteSet × String :=
  let cleared : VoteSet := fun e =>
    if e ∈ REACTIONS ∧ e ≠ sel then (vs e).erase uid else vs e
  if uid ∈ cleared sel then
    (fun e => if e = sel then (cleared e).erase uid else cleared e, "Removed " ++ sel)
  else
    (fun e => if e = sel then insert uid (cleared e) else cleared e, "Added " ++ sel)

/-- How many of the fixed reaction symbols currently contain voter `uid`. -/
def memCount (vs : VoteSet) (uid : Int) : Nat :=
  (REACTIONS.filter (fun e => decide (uid ∈ vs e))).length

/-- Voter `uid` is "Unvoted": member of no fixed symbol's set. -/
def Unvoted (vs : VoteSet) (uid : Int) : Prop :=
  ∀ e ∈ REACTIONS, uid ∉ vs e

instance (vs : VoteSet) (uid : Int) : Decidable (Unvoted vs uid) :=
  inferInstanceAs (Decidable (∀ e ∈ REACTIONS, uid ∉ vs e))

/-- A Python `dict` keyed by strings, as an insertion-ordered association
list. -/
abbrev Registry (α : Type) := List (String × α)

/-- `d.get(key)` / `d[key]` lookup: the value at the (unique) occurrence of
`k`. -/
def dictGet? {α : Type} (l : Registry α) (k : String) : Option α :=
  match l.find? (fun p => decide (p.1 = k)) with
  | some p => some p.2
  | none => none

/-- `d[key] = v`: update in place when the key is present, else append
(CPython dicts keep insertion order). -/
def dictSet {α : Type} (l : Registry α) (k : String) (v : α) : Registry α :=
  if l.any (fun p => decide (p.1 = k)) then
    l.map (fun p => if p.1 = k then (k, v) else p)
  else
    l ++ [(k, v)]

/-- The per-post metadata stored at registration — bot.py line 227. -/
structure PostMeta where
  share_url : Option String
  comment_url : Option String
deriving DecidableEq, Repr

/-- The registration fragment of `add_reaction_buttons`, bot.py lines
214–227: create the vote dict only when the key is absent (`if key not in
context.bot_data["post_reactions"]`), then store the metadata with a plain
assignment `context.bot_data["post_meta"][key] = {...}`. -/
def registerPost (reactions : Registry VoteSet) (meta : Registry PostMeta)
    (key : String) (m : PostMeta) : Registry VoteSet × Registry PostMeta :=
  let reactions' :=
    if (dictGet? reactions key).isSome then reactions
    else dictSet reactions key emptyVoteSet
  (reactions', dictSet meta key m)

/-- The vote-handling fragment of `handle_callback`, bot.py lines 285–308, at
the registry level: synthesize a fresh empty vote dict when the key is missing
(lines 288–290), then run the toggle on the post's dict and return the updated
registry together with the notification text. -/
def handle_callback (reactions : Registry VoteSet) (key : String)
    (uid : Int) (sel : Symbol) : Registry VoteSet × String :=
  let reactions' :=
    if (dictGet? reactions key).isSome then reactions
    else dictSet reactions key emptyVoteSet
  let reactions_map := (dictGet? reactions' key).getD emptyVoteSet
  let r := toggleVote reactions_map uid sel
  (dictSet reactions' key r.1, r.2)

/-- The reaction-button row of `get_keyboard`, bot.py lines 76–81: one label
per symbol of `REACTIONS`, in that order; `count =
len(reactions_data.get(emoji, []))`; label `f"{emoji} {count}"` when the count
is positive, the bare emoji otherwise. -/
def get_keyboard_reaction_row (reactions_data : Registry (Finset Int)) : List String :=
  REACTIONS.map (fun e =>
    let count := ((dictGet? reactions_data e).getD ∅).card
    if 0 < count then e ++ " " ++ toString count else e)

/-- `deque(maxlen=1000)` — bot.py line 31. -/
def DEDUP_CAPACITY : Nat := 1000

/-- `deque.append` with a `maxlen`: append on the right, evicting from the
left whatever exceeds the capacity. -/
def dequeAppend (cap : Nat) (l : List String) (x : String) : List String :=
  let l2 := l ++ [x]
  if cap < l2.length then l2.drop (l2.length - cap) else l2

/-- The media-group deduplication guard of `add_reaction_buttons`, bot.py
lines 134–138: when the message carries a `media_group_id` that is already in
`processed_media_groups` the handler returns (no registration); otherwise the
id is appended to the ledger and processing continues.  Returns (proceed?,
new ledger). -/
def mediaGroupGuard (ledger : List String) (gid : Option String) : Bool × List String :=
  match gid with
  | none => (true, ledger)
  | some g =>
    if g ∈ ledger then (false, ledger)
    else (true, dequeAppend DEDUP_CAPACITY ledger g)

/-- `MAX_POSTS_PER_CHAT = 50` — bot.py line 360. -/
def MAX_POSTS_PER_CHAT : Nat := 50

/-- Value of a run of decimal digits possibly separated by single
underscores, as accepted by Python's `int` (`"1_0"` is 10; leading, trailing
or doubled underscores are rejected). -/
def pyDigitsAux (acc : Nat) : List Char → Option Nat
  | [] => some acc
  | '_' :: c :: cs =>
    if c.isDigit then pyDigitsAux (acc * 10 + (c.toNat - 48)) cs else none
  | ['_'] => none
  | c :: cs =>
    if c.isDigit then pyDigitsAux (acc * 10 + (c.toNat - 48)) cs else none

/-- A nonempty digit run (with optional single underscore separators). -/
def pyDigits : List Char → Option Nat
  | [] => none
  | c :: cs => if c.isDigit then pyDigitsAux (c.toNat - 48) cs else none

/-- Python `int(s)` on a decimal string: surrounding whitespace stripped,
optional sign, then digits. -/
def pyInt? (s : String) : Option Int :=
  let cs := ((s.data.dropWhile Char.isWhitespace).reverse.dropWhile
    Char.isWhitespace).reverse
  match cs with
  | '-' :: rest => (pyDigits rest).map (fun n => -(n : Int))
  | '+' :: rest => (pyDigits rest).map (fun n => (n : Int))
  | rest => (pyDigits rest).map (fun n => (n : Int))

/-- `key.rsplit("_", 1)`: the parts around the LAST underscore; `none` when
the key holds no underscore (then `len(parts) != 2` and the key is skipped). -/
def rsplitAux : List Char → Option (List Char × List Char)
  | [] => none
  | c :: cs =>
    match rsplitAux cs with
    | some (l, r) => some (c :: l, r)
    | none => if c = '_' then some ([], cs) else none

/-- String-level `rsplit("_", 1)` producing the two parts, if any. -/
def rsplitUnderscore (k : String) : Option (String × String) :=
  (rsplitAux k.data).map (fun p => (String.mk p.1, String.mk p.2))

/-- Key parsing of `prune_bot_data`, bot.py lines 347–357: split at the last
underscore and convert both parts with `int`; malformed keys yield `none`
(the `continue` branches). -/
def parseKey (k : String) : Option (Int × Int) :=
  match rsplitUnderscore k with
  | none => none
  | some (a, b) =>
    match pyInt? a, pyInt? b with
    | some ci, some mi => some (ci, mi)
    | _, _ => none

/-- `chat_posts[chat_id]` after the grouping loop of `prune_bot_data`
(bot.py lines 344–357): the `(msg_id, key)` pairs of the keys that parse and
belong to chat `c`, in registry order. -/
def chatPostsFor (keys : List String) (c : Int) : List (Int × String) :=
  keys.filterMap (fun k =>
    match parseKey k with
    | some (ci, mi) => if ci = c then some (mi, k) else none
    | none => none)

/-- The chat ids that occur among the parseable keys (the key set of
`chat_posts`), in first-occurrence order. -/
def chatIdsOf (keys : List String) : List Int :=
  (keys.filterMap (fun k => (parseKey k).map Prod.fst)).dedup

/-- One step of a stable descending insertion sort on `(msg_id, key)` pairs:
the new pair goes after every pair with a greater-or-equal message id. -/
def insertDesc (p : Int × String) : List (Int × String) → List (Int × String)
  | [] => [p]
  | q :: rest => if p.1 ≤ q.1 then q :: insertDesc p rest else p :: q :: rest

/-- `posts.sort(key=lambda x: x[0], reverse=True)` — a stable sort by message
id descending (bot.py line 364); Python's sort is stable, and so is this
insertion sort. -/
def sortDesc (l : List (Int × String)) : List (Int × String) :=
  l.foldl (fun acc p => insertDesc p acc) []

/-- `keys_to_remove` of `prune_bot_data`, bot.py lines 359–369: per chat,
sort the posts by message id descending and mark everything beyond the first
`MAX_POSTS_PER_CHAT` for removal. -/
def keysToRemove (keys : List String) : List String :=
  (chatIdsOf keys).flatMap (fun c =>
    let posts := sortDesc (chatPostsFor keys c)
    if MAX_POSTS_PER_CHAT < posts.length then
      (posts.drop MAX_POSTS_PER_CHAT).map Prod.snd
    else [])

/-- The state change of `prune_bot_data`, bot.py lines 371–375: when there is
something to remove, pop every marked key from both `post_reactions` and
`post_meta`. -/
def prune_bot_data (reactions : Registry VoteSet) (meta : Registry PostMeta) :
    Registry VoteSet × Registry PostMeta :=
  let rm := keysToRemove (reactions.map Prod.fst)
  if rm.isEmpty then (reactions, meta)
  else
    (reactions.filter (fun p => !(decide (p.1 ∈ rm))),
     meta.filter (fun p => !(decide (p.1 ∈ rm))))

/-- A sequence of button presses `(user_id, selected_emoji)` applied to one
post's vote dict, in order. -/
def toggleSeq (vs : VoteSet) (ops : List (Int × Symbol)) : VoteSet :=
  ops.foldl (fun s op => (toggleVote s op.1 op.2).1) vs

/-- Single-choice exclusivity: every voter id is in at most one symbol's
set. -/
def AllExclusive (vs : VoteSet) : Prop :=
  ∀ u : Int, memCount vs u ≤ 1

/-- Number of entries of a registry that carry key `k` (a dict has at most
one). -/
def countKey {α : Type} (l : Registry α) (k : String) : Nat :=
  (l.filter (fun p => decide (p.1 = k))).length

/-- Descending-by-message-id ordering of `(msg_id, key)` lists. -/
def SortedDesc (l : List (Int × String)) : Prop :=
  l.Pairwise (fun a b => b.1 ≤ a.1)

/-- A chat-5 registry key list with message ids 1..60, in ascending order. -/
def keys60 : List String := (List.range 60).map (fun i => "5_" ++ toString (i + 1))

/-- A concrete vote dict in which voter 7 has reacted "👎". -/
def vsDown7 : VoteSet := fun e => if e = "👎" then ({7} : Finset Int) else ∅

/-- A concrete vote dict in which voter 7 has reacted "👍". -/
def vsUp7 : VoteSet := fun e => if e = "👍" then ({7} : Finset Int) else ∅

/-- A concrete `reactions_data` dict: one voter on "🔥", none elsewhere. -/
def rdEx : Registry (Finset Int) := [("👍", ∅), ("👎", ∅), ("🔥", {5}), ("❤️", ∅)]

/-- The same `reactions_data` with the mapping's own order reversed. -/
def rdEx2 : Registry (Finset Int) := [("❤️", ∅), ("🔥", {5}), ("👎", ∅), ("👍", ∅)]

/-- A `post_reactions` registry holding the 60 chat-5 posts of `keys60`. -/
def reactions60 : Registry VoteSet := keys60.map (fun k => (k, emptyVoteSet))

/-- A `post_meta` registry holding the 60 chat-5 posts of `keys60`. -/
def meta60 : Registry PostMeta := keys60.map (fun k => (k, ⟨none, none⟩))

/-! ### Basic facts about the fixed symbol list and dictionaries -/

theorem reactions_nodup : REACTIONS.Nodup := by decide

theorem dictGet?_nil {α : Type} (k : String) : dictGet? ([] : Registry α) k = none := rfl

theorem dictGet?_cons {α : Type} (q : String × α) (l : Registry α) (k : String) :
    dictGet? (q :: l) k = if q.1 = k then some q.2 else dictGet? l k := by
  by_cases h : q.1 = k <;> simp [dictGet?, List.find?, h]

theorem dictGet?_eq_none_iff {α : Type} (l : Registry α) (k : String) :
    dictGet? l k = none ↔ ∀ p ∈ l, p.1 ≠ k := by
  induction l with
  | nil => simp [dictGet?_nil]
  | cons q l ih =>
    rw [dictGet?_cons]
    by_cases h : q.1 = k
    · simp [h]
    · simp [h, ih]

theorem dictGet?_append {α : Type} (l1 l2 : Registry α) (k : String) :
    dictGet? (l1 ++ l2) k =
      match dictGet? l1 k with
      | some v => some v
      | none => dictGet? l2 k := by
  induction l1 with
  | nil => simp [dictGet?_nil]
  | cons q l ih =>
    by_cases h : q.1 = k <;> simp [dictGet?_cons, h, ih]

theorem dictGet?_mapSet_self {α : Type} (l : Registry α) (k : String) (v : α)
    (h : l.any (fun p => decide (p.1 = k)) = true) :
    dictGet? (l.map (fun p => if p.1 = k then (k, v) else p)) k = some v := by
  induction l with
  | nil => simp at h
  | cons q l ih =>
    by_cases hq : q.1 = k
    · simp [dictGet?_cons, hq]
    · simp only [List.any_cons, hq, decide_eq_true_eq, Bool.or_eq_true, false_or] at h
      simp only [List.map_cons, hq, if_false]
      rw [dictGet?_cons]
      simp only [hq, if_false]
      exact ih h

theorem dictGet?_mapSet_ne {α : Type} (l : Registry α) (k k' : String) (v : α)
    (h : k' ≠ k) :
    dictGet? (l.map (fun p => if p.1 = k then (k, v) else p)) k' = dictGet? l k' := by
  have hq' : ¬ (k = k') := fun hkk => h hkk.symm
  induction l with
  | nil => rfl
  | cons q l ih =>
    by_cases hq : q.1 = k
    · have hqk' : ¬ (q.1 = k') := by rw [hq]; exact hq'
      simp [List.map_cons, hq, dictGet?_cons, hq', hqk', ih]
    · simp only [List.map_cons, hq, if_false]
      rw [dictGet?_cons, dictGet?_cons]
      by_cases hqk' : q.1 = k'
      · simp [hqk']
      · simp only [hqk', if_false]
        exact ih

theorem dictGet?_dictSet_self {α : Type} (l : Registry α) (k : String) (v : α) :
    dictGet? (dictSet l k v) k = some v := by
  unfold dictSet
  by_cases h : l.any (fun p => decide (p.1 = k)) = true
  · simpa [h] using dictGet?_mapSet_self l k v h
  · rw [if_neg h, dictGet?_append]
    have hnone : dictGet? l k = none := by
      rw [dictGet?_eq_none_iff]
      intro p hp hpk
      apply h
      rw [List.any_eq_true]
      exact ⟨p, hp, by simp [hpk]⟩
    simp [hnone, dictGet?_cons]

theorem dictGet?_dictSet_ne {α : Type} (l : Registry α) (k k' : String) (v : α)
    (h : k' ≠ k) : dictGet? (dictSet l k v) k' = dictGet? l k' := by
  unfold dictSet
  by_cases hl : l.any (fun p => decide (p.1 = k)) = true
  · simpa [hl] using dictGet?_mapSet_ne l k k' v h
  · rw [if_neg hl, dictGet?_append]
    cases hg : dictGet? l k' with
    | some w => simp
    | none =>
      have hkk' : ¬ (k = k') := fun hkk => h hkk.symm
      simp [dictGet?_cons, hkk', dictGet?_nil]

/-! ### The toggle algorithm, pointwise -/

theorem toggleVote_fst_apply (vs : VoteSet) (u : Int) (sel e : Symbol) :
    (toggleVote vs u sel).1 e =
      if e = sel then
        (if u ∈ vs sel then (vs sel).erase u else insert u (vs sel))
      else if e ∈ REACTIONS then (vs e).erase u
      else vs e := by
  by_cases hb : u ∈ vs sel <;> by_cases hes : e = sel <;>
    simp [toggleVote, hb, hes]

theorem toggleVote_snd (vs : VoteSet) (u : Int) (sel : Symbol) :
    (toggleVote vs u sel).2 = if u ∈ vs sel then "Removed " ++ sel else "Added " ++ sel := by
  by_cases hb : u ∈ vs sel <;> simp [toggleVote, hb]

theorem mem_toggle_of_ne (vs : VoteSet) (u : Int) (sel : Symbol) (v : Int) (e : Symbol)
    (hv : v ≠ u) : v ∈ (toggleVote vs u sel).1 e ↔ v ∈ vs e := by
  rw [toggleVote_fst_apply]
  by_cases hes : e = sel
  · subst hes
    by_cases hb : u ∈ vs e <;> simp [hb, Finset.mem_erase, Finset.mem_insert, hv]
  · by_cases hr : e ∈ REACTIONS <;> simp [hes, hr, Finset.mem_erase, hv]

theorem mem_toggle_self (vs : VoteSet) (u : Int) (sel e : Symbol) :
    u ∈ (toggleVote vs u sel).1 e ↔
      ((e = sel ∧ u ∉ vs sel) ∨ (e ∉ REACTIONS ∧ e ≠ sel ∧ u ∈ vs e)) := by
  rw [toggleVote_fst_apply]
  by_cases hes : e = sel
  · subst hes
    by_cases hb : u ∈ vs e <;> simp [hb, Finset.mem_erase]
  · by_cases hr : e ∈ REACTIONS <;> simp [hes, hr, Finset.mem_erase]

/-! ### Exclusivity counting -/

theorem filter_length_le_one {α : Type} [DecidableEq α] {l : List α} (hnd : l.Nodup)
    {p : α → Bool} (a : α) (h : ∀ x ∈ l, p x = true → x = a) :
    (l.filter p).length ≤ 1 := by
  induction l with
  | nil => simp
  | cons c l ih =>
    rw [List.nodup_cons] at hnd
    by_cases hc : p c = true
    · have hca := h c (List.mem_cons_self c l) hc
      have hnil : l.filter p = [] := by
        rw [List.filter_eq_nil_iff]
        intro x hx hpx
        have hxa := h x (List.mem_cons_of_mem c hx) hpx
        have hxc : x = c := by rw [hxa, hca]
        exact hnd.1 (hxc ▸ hx)
      simp [List.filter_cons, hc, hnil]
    · simp only [List.filter_cons, hc, if_false]
      exact ih hnd.2 (fun x hx hpx => h x (List.mem_cons_of_mem c hx) hpx)

theorem filter_length_le_two {α : Type} [DecidableEq α] {l : List α} (hnd : l.Nodup)
    {p : α → Bool} (a b : α) (h : ∀ x ∈ l, p x = true → x = a ∨ x = b) :
    (l.filter p).length ≤ 2 := by
  have hsub : (l.filter p).toFinset ⊆ {a, b} := by
    intro x hx
    rw [List.mem_toFinset] at hx
    have hmem := List.mem_of_mem_filter hx
    have hpx := List.of_mem_filter hx
    rcases h x hmem hpx with h1 | h1 <;> simp [h1]
  have h1 : (l.filter p).toFinset.card ≤ ({a, b} : Finset α).card :=
    Finset.card_le_card hsub
  have h2 : ({a, b} : Finset α).card ≤ 2 :=
    le_trans (Finset.card_insert_le a {b}) (by simp)
  have h3 : (l.filter p).toFinset.card = (l.filter p).length :=
    List.toFinset_card_of_nodup (hnd.filter p)
  omega

theorem memCount_le_one_of_unique (vs : VoteSet) (u : Int) (a : Symbol)
    (h : ∀ e ∈ REACTIONS, u ∈ vs e → e = a) : memCount vs u ≤ 1 := by
  unfold memCount
  exact filter_length_le_one reactions_nodup a
    (fun x hx hpx => h x hx (of_decide_eq_true hpx))

theorem memCount_self_heal (vs : VoteSet) (u : Int) (sel : Symbol) :
    memCount (toggleVote vs u sel).1 u ≤ 1 := by
  apply memCount_le_one_of_unique _ _ sel
  intro e he hmem
  rw [mem_toggle_self] at hmem
  rcases hmem with ⟨h1, _⟩ | ⟨h1, _⟩
  · exact h1
  · exact absurd he h1

theorem memCount_toggle_other (vs : VoteSet) (u : Int) (sel : Symbol) (v : Int)
    (hv : v ≠ u) : memCount (toggleVote vs u sel).1 v = memCount vs v := by
  unfold memCount
  apply congrArg List.length
  apply List.filter_congr
  intro x hx
  simp [mem_toggle_of_ne vs u sel v x hv]

theorem AllExclusive_toggle (vs : VoteSet) (u : Int) (sel : Symbol)
    (h : AllExclusive vs) : AllExclusive (toggleVote vs u sel).1 := by
  intro v
  by_cases hv : v = u
  · subst hv
    exact memCount_self_heal vs v sel
  · rw [memCount_toggle_other vs u sel v hv]
    exact h v

theorem AllExclusive_toggleSeq (ops : List (Int × Symbol)) :
    ∀ vs, AllExclusive vs → AllExclusive (toggleSeq vs ops) := by
  induction ops with
  | nil => exact fun vs h => h
  | cons op ops ih =>
    exact fun vs h => ih _ (AllExclusive_toggle vs op.1 op.2 h)

/-- The two confirmation texts are distinct for every symbol. -/
theorem removed_ne_added (sel : Symbol) : "Removed " ++ sel ≠ "Added " ++ sel := by
  intro h
  have hlen := congrArg String.length h
  simp only [String.length_append] at hlen
  have h8 : "Removed ".length = 8 := rfl
  have h6 : "Added ".length = 6 := rfl
  rw [h8, h6] at hlen
  omega

/-- C2: single-choice exclusivity invariant.  Starting from any state in
which every voter is in at most one symbol's set, after every prefix of any
sequence of toggle operations every voter is still in at most one symbol's
set; and a single toggle puts the pressing voter in at most one symbol's set
even from an arbitrary (possibly corrupted) prior state (self-healing). -/
theorem c2_single_choice_exclusivity (vs : VoteSet) (ops : List (Int × Symbol))
    (h0 : AllExclusive vs) :
    (∀ pre suf, ops = pre ++ suf → AllExclusive (toggleSeq vs pre))
  ∧ (∀ (w : VoteSet) (u : Int) (sel : Symbol), memCount (toggleVote w u sel).1 u ≤ 1) := by
  constructor
  · intro pre _ _
    exact AllExclusive_toggleSeq pre vs h0
  · intro w u sel
    exact memCount_self_heal w u sel

/-- C2 witness: a concrete run from the empty vote dict. -/
theorem c2_witness :
    AllExclusive emptyVoteSet ∧ AllExclusive (toggleSeq emptyVoteSet [(7, "👍")]) := by
  have h0 : AllExclusive emptyVoteSet := by
    intro u
    simp [memCount, emptyVoteSet]
  exact ⟨h0, (c2_single_choice_exclusivity emptyVoteSet [(7, "👍")] h0).1 [(7, "👍")] [] rfl⟩

/-- C3 fails as stated: voter 7 starts with reaction "👎"; toggling "👍"
twice in a row does NOT return the VoteSet to its pre-first-toggle content
("👎"'s set loses voter 7). -/
theorem c3_counterexample :
    ¬ (((toggleVote (toggleVote vsDown7 7 "👍").1 7 "👍").1) "👎" = vsDown7 "👎") := by
  decide

/-- C3 (amended): when the voter starts Unvoted (in no symbol's set),
toggling the same (post, voter, symbol) twice in a row returns the voter to
Unvoted and the VoteSet to exactly its pre-first-toggle content. -/
theorem c3_double_toggle (vs : VoteSet) (u : Int) (sel : Symbol)
    (hsel : sel ∈ REACTIONS) (h0 : Unvoted vs u) :
    (toggleVote (toggleVote vs u sel).1 u sel).1 = vs ∧
    Unvoted (toggleVote (toggleVote vs u sel).1 u sel).1 u := by
  have hs : u ∉ vs sel := h0 sel hsel
  have hvs1 : (toggleVote vs u sel).1 = fun e => if e = sel then insert u (vs sel) else vs e := by
    funext e
    rw [toggleVote_fst_apply]
    by_cases hes : e = sel
    · simp [hes, hs]
    · by_cases hr : e ∈ REACTIONS
      · simp [hes, hr, Finset.erase_eq_of_not_mem (h0 e hr)]
      · simp [hes, hr]
  have hmain : (toggleVote (toggleVote vs u sel).1 u sel).1 = vs := by
    funext e
    rw [toggleVote_fst_apply, hvs1]
    by_cases hes : e = sel
    · simp [hes, Finset.erase_insert hs]
    · by_cases hr : e ∈ REACTIONS
      · simp [hes, hr, Finset.erase_eq_of_not_mem (h0 e hr)]
      · simp [hes, hr]
  exact ⟨hmain, by rw [hmain]; exact h0⟩

/-- C3 witness: the amended statement at the empty vote dict. -/
theorem c3_witness :
    ("👍" ∈ REACTIONS ∧ Unvoted emptyVoteSet 7) ∧
    ((toggleVote (toggleVote emptyVoteSet 7 "👍").1 7 "👍").1 = emptyVoteSet ∧
      Unvoted (toggleVote (toggleVote emptyVoteSet 7 "👍").1 7 "👍").1 7) :=
  ⟨⟨by decide, by decide⟩, c3_double_toggle emptyVoteSet 7 "👍" (by decide) (by decide)⟩

/-- C4: the confirmation text is "Removed <symbol>" iff the voter ends the
toggle Unvoted, and "Added <symbol>" iff the voter ends in the selected
symbol's set. -/
theorem c4_confirmation_text (vs : VoteSet) (u : Int) (sel : Symbol)
    (hsel : sel ∈ REACTIONS) :
    ((toggleVote vs u sel).2 = "Removed " ++ sel ↔ Unvoted (toggleVote vs u sel).1 u)
  ∧ ((toggleVote vs u sel).2 = "Added " ++ sel ↔ u ∈ (toggleVote vs u sel).1 sel) := by
  by_cases hb : u ∈ vs sel
  · have hsnd : (toggleVote vs u sel).2 = "Removed " ++ sel := by
      rw [toggleVote_snd, if_pos hb]
    have hunv : Unvoted (toggleVote vs u sel).1 u := by
      intro e he hmem
      rw [mem_toggle_self] at hmem
      rcases hmem with ⟨_, hns⟩ | ⟨hnr, _⟩
      · exact hns hb
      · exact hnr he
    constructor
    · rw [hsnd]
      exact ⟨fun _ => hunv, fun _ => rfl⟩
    · rw [hsnd]
      constructor
      · intro heq
        exact absurd heq (removed_ne_added sel)
      · intro hmem
        exact absurd hmem (hunv sel hsel)
  · have hsnd : (toggleVote vs u sel).2 = "Added " ++ sel := by
      rw [toggleVote_snd, if_neg hb]
    have hmem : u ∈ (toggleVote vs u sel).1 sel := by
      rw [mem_toggle_self]
      exact Or.inl ⟨rfl, hb⟩
    constructor
    · rw [hsnd]
      constructor
      · intro heq
        exact absurd heq.symm (removed_ne_added sel)
      · intro hunv
        exact absurd hmem (hunv sel hsel)
    · rw [hsnd]
      exact ⟨fun _ => hmem, fun _ => rfl⟩

/-- C4 witness: first press of "🔥" from the empty vote dict. -/
theorem c4_witness :
    "🔥" ∈ REACTIONS ∧
    (((toggleVote emptyVoteSet 7 "🔥").2 = "Removed " ++ "🔥" ↔
        Unvoted (toggleVote emptyVoteSet 7 "🔥").1 7)
     ∧ ((toggleVote emptyVoteSet 7 "🔥").2 = "Added " ++ "🔥" ↔
        7 ∈ (toggleVote emptyVoteSet 7 "🔥").1 "🔥")) :=
  ⟨by decide, c4_confirmation_text emptyVoteSet 7 "🔥" (by decide)⟩

/-- C7: a vote on a key absent from the registry never fails: a fresh
all-empty VoteSet is synthesized under that key, the toggle proceeds, and
the first such vote is confirmed with "Added <symbol>". -/
theorem c7_missing_state_recovery (reactions : Registry VoteSet) (key : String)
    (u : Int) (sel : Symbol) (h : dictGet? reactions key = none) :
    (handle_callback reactions key u sel).2 = "Added " ++ sel
  ∧ dictGet? (handle_callback reactions key u sel).1 key =
      some (toggleVote emptyVoteSet u sel).1
  ∧ (toggleVote emptyVoteSet u sel).1 sel = {u}
  ∧ (∀ e, e ≠ sel → (toggleVote emptyVoteSet u sel).1 e = ∅) := by
  have hcb : handle_callback reactions key u sel =
      (dictSet (dictSet reactions key emptyVoteSet) key (toggleVote emptyVoteSet u sel).1,
       (toggleVote emptyVoteSet u sel).2) := by
    unfold handle_callback
    rw [h]
    simp [dictGet?_dictSet_self]
  refine ⟨?_, ?_, ?_, ?_⟩
  · rw [hcb]
    simp [toggleVote_snd, emptyVoteSet]
  · rw [hcb]
    exact dictGet?_dictSet_self _ _ _
  · rw [toggleVote_fst_apply]
    simp [emptyVoteSet]
  · intro e he
    rw [toggleVote_fst_apply]
    by_cases hr : e ∈ REACTIONS <;> simp [he, hr, emptyVoteSet]

/-- C7 witness: first vote on an unregistered post key. -/
theorem c7_witness :
    dictGet? ([] : Registry VoteSet) "1_2" = none
  ∧ ((handle_callback [] "1_2" 7 "👍").2 = "Added " ++ "👍"
     ∧ dictGet? (handle_callback [] "1_2" 7 "👍").1 "1_2" =
         some (toggleVote emptyVoteSet 7 "👍").1
     ∧ (toggleVote emptyVoteSet 7 "👍").1 "👍" = {7}
     ∧ (∀ e, e ≠ "👍" → (toggleVote emptyVoteSet 7 "👍").1 e = ∅)) :=
  ⟨rfl, c7_missing_state_recovery [] "1_2" 7 "👍" rfl⟩

/-! ### Lookup under permutation and key counting -/

theorem dictGet?_eq_some_iff {α : Type} (l : Registry α)
    (hnd : (l.map Prod.fst).Nodup) (k : String) (v : α) :
    dictGet? l k = some v ↔ (k, v) ∈ l := by
  induction l with
  | nil => simp [dictGet?_nil]
  | cons q l ih =>
    rw [List.map_cons, List.nodup_cons] at hnd
    rw [dictGet?_cons]
    by_cases hq : q.1 = k
    · rw [if_pos hq]
      constructor
      · intro hv
        exact List.mem_cons.mpr (Or.inl (Prod.ext hq.symm (Option.some.inj hv).symm))
      · intro h
        rcases List.mem_cons.mp h with h | h
        · exact congrArg some (congrArg Prod.snd h).symm
        · exact absurd (List.mem_map_of_mem Prod.fst h) (hq ▸ hnd.1)
    · rw [if_neg hq, ih hnd.2]
      constructor
      · exact fun h => List.mem_cons_of_mem q h
      · intro h
        rcases List.mem_cons.mp h with h | h
        · exact absurd (congrArg Prod.fst h).symm hq
        · exact h

theorem dictGet?_perm {α : Type} (l l2 : Registry α)
    (hnd : (l.map Prod.fst).Nodup) (hp : l.Perm l2) (k : String) :
    dictGet? l2 k = dictGet? l k := by
  have hnd2 : (l2.map Prod.fst).Nodup := ((hp.map Prod.fst).nodup_iff).mp hnd
  cases h2 : dictGet? l2 k with
  | some v =>
    rw [dictGet?_eq_some_iff l2 hnd2] at h2
    exact ((dictGet?_eq_some_iff l hnd k v).mpr (hp.symm.subset h2)).symm
  | none =>
    cases h1 : dictGet? l k with
    | none => rfl
    | some v =>
      rw [dictGet?_eq_some_iff l hnd] at h1
      have hs := (dictGet?_eq_some_iff l2 hnd2 k v).mpr (hp.subset h1)
      rw [hs] at h2
      exact absurd h2 (by simp)

theorem countKey_dictSet_absent {α : Type} (l : Registry α) (k : String) (v : α)
    (h : dictGet? l k = none) : countKey (dictSet l k v) k = 1 := by
  have hall : ∀ p ∈ l, p.1 ≠ k := (dictGet?_eq_none_iff l k).mp h
  have hany : ¬ (l.any (fun p => decide (p.1 = k)) = true) := by
    intro hx
    rw [List.any_eq_true] at hx
    obtain ⟨p, hp, hpk⟩ := hx
    exact hall p hp (of_decide_eq_true hpk)
  unfold dictSet
  rw [if_neg hany]
  unfold countKey
  rw [List.filter_append]
  have h0 : l.filter (fun p => decide (p.1 = k)) = [] := by
    rw [List.filter_eq_nil_iff]
    intro p hp
    simp [hall p hp]
  simp [h0]

theorem countKey_dictSet_present {α : Type} (l : Registry α) (k : String) (v : α)
    (h : (dictGet? l k).isSome = true) :
    countKey (dictSet l k v) k = countKey l k := by
  have hany : l.any (fun p => decide (p.1 = k)) = true := by
    rw [List.any_eq_true]
    by_contra hno
    have hnone : dictGet? l k = none := by
      rw [dictGet?_eq_none_iff]
      intro p hp hpk
      exact hno ⟨p, hp, by simp [hpk]⟩
    rw [hnone] at h
    simp at h
  unfold dictSet
  rw [if_pos hany]
  unfold countKey
  rw [List.filter_map, List.length_map]
  apply congrArg List.length
  apply List.filter_congr
  intro p hp
  by_cases hpk : p.1 = k <;> simp [hpk, Function.comp]

/-- C1 fails as stated (write-once metadata): registering the same key twice
with different metadata stores the SECOND metadata, not the first. -/
theorem c1_counterexample :
    (registerPost (registerPost [] [] "1_2" ⟨some "a", none⟩).1
        (registerPost [] [] "1_2" ⟨some "a", none⟩).2 "1_2" ⟨some "b", none⟩).2
      = [("1_2", (⟨some "b", none⟩ : PostMeta))]
  ∧ (⟨some "a", none⟩ : PostMeta) ≠ (⟨some "b", none⟩ : PostMeta) := by
  constructor
  · rfl
  · decide

/-- C1 (amended): registering a key twice yields exactly one registry entry
whose vote sets are the ones accumulated since the first registration (the
second registration leaves the reactions registry untouched), but the stored
metadata is the one supplied at the SECOND registration (metadata is
overwritten on every registration, not write-once). -/
theorem c1_register_twice (reactions : Registry VoteSet) (meta : Registry PostMeta)
    (key : String) (m1 m2 : PostMeta) (vs : VoteSet)
    (r1 : Registry VoteSet) (t1 : Registry PostMeta)
    (r2 : Registry VoteSet) (t2 : Registry PostMeta)
    (hfresh : dictGet? reactions key = none)
    (h1 : registerPost reactions meta key m1 = (r1, t1))
    (h2 : registerPost (dictSet r1 key vs) t1 key m2 = (r2, t2)) :
    r2 = dictSet r1 key vs
  ∧ countKey r2 key = 1
  ∧ dictGet? r2 key = some vs
  ∧ dictGet? t2 key = some m2 := by
  have hreg1 : registerPost reactions meta key m1 =
      (dictSet reactions key emptyVoteSet, dictSet meta key m1) := by
    simp [registerPost, hfresh]
  rw [hreg1] at h1
  injection h1 with e1 e2
  have hreg2 : registerPost (dictSet r1 key vs) t1 key m2 =
      (dictSet r1 key vs, dictSet t1 key m2) := by
    simp [registerPost, dictGet?_dictSet_self]
  rw [hreg2] at h2
  injection h2 with e3 e4
  subst e3
  subst e4
  refine ⟨rfl, ?_, dictGet?_dictSet_self _ _ _, dictGet?_dictSet_self _ _ _⟩
  rw [countKey_dictSet_present r1 key vs (by rw [← e1, dictGet?_dictSet_self]; rfl)]
  rw [← e1]
  exact countKey_dictSet_absent reactions key emptyVoteSet hfresh

/-- C1 witness: double registration of key "1_2" with a vote in between. -/
theorem c1_witness :
    ([("1_2", vsUp7)] : Registry VoteSet) = dictSet [("1_2", emptyVoteSet)] "1_2" vsUp7
  ∧ countKey ([("1_2", vsUp7)] : Registry VoteSet) "1_2" = 1
  ∧ dictGet? ([("1_2", vsUp7)] : Registry VoteSet) "1_2" = some vsUp7
  ∧ dictGet? ([("1_2", (⟨some "b", none⟩ : PostMeta))] : Registry PostMeta) "1_2"
      = some ⟨some "b", none⟩ :=
  c1_register_twice [] [] "1_2" ⟨some "a", none⟩ ⟨some "b", none⟩ vsUp7
    [("1_2", emptyVoteSet)] [("1_2", ⟨some "a", none⟩)]
    [("1_2", vsUp7)] [("1_2", ⟨some "b", none⟩)] rfl rfl rfl

/-- C6: the reaction row has one label per symbol, in the fixed `REACTIONS`
order; a zero-count symbol renders bare, a positive count as
"<symbol> <count>"; and the row does not depend on the mapping's own
iteration order. -/
theorem c6_label_rendering (rd rd2 : Registry (Finset Int))
    (hnd : (rd.map Prod.fst).Nodup) (hperm : rd.Perm rd2) :
    get_keyboard_reaction_row rd = REACTIONS.map (fun e =>
        if ((dictGet? rd e).getD ∅).card = 0 then e
        else e ++ " " ++ toString ((dictGet? rd e).getD ∅).card)
  ∧ get_keyboard_reaction_row rd2 = get_keyboard_reaction_row rd := by
  constructor
  · unfold get_keyboard_reaction_row
    apply List.map_congr_left
    intro e _
    by_cases hc : ((dictGet? rd e).getD ∅).card = 0
    · simp [hc]
    · simp [hc, Nat.pos_of_ne_zero hc]
  · unfold get_keyboard_reaction_row
    apply List.map_congr_left
    intro e _
    rw [dictGet?_perm rd rd2 hnd hperm e]

/-- C6 witness: the spec's concrete example, also rendered from a reversed
underlying mapping. -/
theorem c6_witness :
    get_keyboard_reaction_row rdEx = ["👍", "👎", "🔥 1", "❤️"]
  ∧ get_keyboard_reaction_row rdEx2 = get_keyboard_reaction_row rdEx :=
  ⟨by decide, (c6_label_rendering rdEx rdEx2 (by decide) (by decide)).2⟩

/-- C9: the dedup ledger never exceeds its fixed capacity of 1000; appending
to a full ledger silently evicts the oldest entry; a resident group id is
reported as seen and the ledger (hence the registration) is left untouched. -/
theorem c9_dedup_ledger (l : List String) (g : String) :
    (∀ gid, l.length ≤ DEDUP_CAPACITY → (mediaGroupGuard l gid).2.length ≤ DEDUP_CAPACITY)
  ∧ (l.length = DEDUP_CAPACITY → g ∉ l →
      (mediaGroupGuard l (some g)).2 = l.drop 1 ++ [g])
  ∧ (g ∈ l → mediaGroupGuard l (some g) = (false, l)) := by
  refine ⟨?_, ?_, ?_⟩
  · intro gid hlen
    cases gid with
    | none => exact hlen
    | some x =>
      by_cases hx : x ∈ l
      · simpa [mediaGroupGuard, hx] using hlen
      · simp only [mediaGroupGuard, hx, if_neg, ite_false]
        unfold dequeAppend
        by_cases hc : DEDUP_CAPACITY < (l ++ [x]).length
        · rw [if_pos hc]
          rw [List.length_drop]
          omega
        · rw [if_neg hc]
          rw [List.length_append] at hc ⊢
          simp only [List.length_cons, List.length_nil] at hc ⊢
          omega
  · intro hlen hg
    simp only [mediaGroupGuard, hg, ite_false]
    unfold dequeAppend
    have hlen2 : (l ++ [g]).length = DEDUP_CAPACITY + 1 := by
      simp [hlen]
    rw [if_pos (by rw [hlen2]; omega)]
    rw [hlen2]
    have h1 : DEDUP_CAPACITY + 1 - DEDUP_CAPACITY = 1 := by omega
    rw [h1]
    rw [List.drop_append_of_le_length (by rw [hlen]; exact Nat.one_le_iff_ne_zero.mpr (by simp [DEDUP_CAPACITY]))]
  · intro hg
    simp [mediaGroupGuard, hg]

/-- C9 witness: a full 1000-entry ledger evicts its oldest entry, and a
resident id short-circuits. -/
theorem c9_witness :
    ((List.replicate 1000 "a").length = DEDUP_CAPACITY ∧ "b" ∉ List.replicate 1000 "a")
  ∧ (mediaGroupGuard (List.replicate 1000 "a") (some "b")).2
      = (List.replicate 1000 "a").drop 1 ++ ["b"]
  ∧ mediaGroupGuard (List.replicate 1000 "a") (some "a") = (false, List.replicate 1000 "a") := by
  have hlen : (List.replicate 1000 "a").length = DEDUP_CAPACITY := by
    rw [List.length_replicate]
    rfl
  have hb : "b" ∉ List.replicate 1000 "a" := by
    rw [List.mem_replicate]
    intro hba
    exact absurd hba.2 (by decide)
  have ha : "a" ∈ List.replicate 1000 "a" := by
    rw [List.mem_replicate]
    exact ⟨by decide, rfl⟩
  exact ⟨⟨hlen, hb⟩, (c9_dedup_ledger (List.replicate 1000 "a") "b").2.1 hlen hb,
    (c9_dedup_ledger (List.replicate 1000 "a") "a").2.2 ha⟩

/-! ### Frame properties of a toggle -/

theorem two_le_memCount (vs : VoteSet) (u : Int) (e1 e2 : Symbol)
    (h1 : e1 ∈ REACTIONS) (h2 : e2 ∈ REACTIONS) (hne : e1 ≠ e2)
    (hm1 : u ∈ vs e1) (hm2 : u ∈ vs e2) : 2 ≤ memCount vs u := by
  unfold memCount
  have hsub : ({e1, e2} : Finset Symbol) ⊆
      (REACTIONS.filter (fun e => decide (u ∈ vs e))).toFinset := by
    intro x hx
    rw [Finset.mem_insert, Finset.mem_singleton] at hx
    rw [List.mem_toFinset, List.mem_filter]
    rcases hx with h | h
    · exact ⟨h ▸ h1, h ▸ by simp [hm1]⟩
    · exact ⟨h ▸ h2, h ▸ by simp [hm2]⟩
  calc 2 = ({e1, e2} : Finset Symbol).card := (Finset.card_pair hne).symm
    _ ≤ (REACTIONS.filter (fun e => decide (u ∈ vs e))).toFinset.card :=
        Finset.card_le_card hsub
    _ ≤ (REACTIONS.filter (fun e => decide (u ∈ vs e))).length :=
        List.toFinset_card_le _

/-- C10: a toggle by voter `u` changes only `u`'s own memberships — every
other voter's membership in every symbol is unchanged, and every post other
than the pressed one is unchanged; consequently (under the single-choice
invariant for `u`) at most two symbol counts change, each by exactly 1. -/
theorem c10_toggle_frame (vs : VoteSet) (u : Int) (sel : Symbol)
    (reactions : Registry VoteSet) (key : String) :
    (∀ (e : Symbol) (v : Int), v ≠ u →
        (v ∈ (toggleVote vs u sel).1 e ↔ v ∈ vs e))
  ∧ (∀ k2, k2 ≠ key →
        dictGet? (handle_callback reactions key u sel).1 k2 = dictGet? reactions k2)
  ∧ (sel ∈ REACTIONS → memCount vs u ≤ 1 →
      (∀ e ∈ REACTIONS,
          ((toggleVote vs u sel).1 e).card = (vs e).card
        ∨ ((toggleVote vs u sel).1 e).card = (vs e).card + 1
        ∨ (vs e).card = ((toggleVote vs u sel).1 e).card + 1)
    ∧ (REACTIONS.filter (fun e =>
          decide (((toggleVote vs u sel).1 e).card ≠ (vs e).card))).length ≤ 2) := by
  refine ⟨?_, ?_, ?_⟩
  · intro e v hv
    exact mem_toggle_of_ne vs u sel v e hv
  · intro k2 hk2
    unfold handle_callback
    by_cases hs : (dictGet? reactions key).isSome = true
    · rw [if_pos hs]
      exact dictGet?_dictSet_ne _ _ _ _ hk2
    · rw [if_neg hs]
      rw [dictGet?_dictSet_ne _ _ _ _ hk2]
      exact dictGet?_dictSet_ne _ _ _ _ hk2
  · intro hsel hexcl
    constructor
    · intro e he
      rw [toggleVote_fst_apply]
      by_cases hes : e = sel
      · subst hes
        by_cases hb : u ∈ vs e
        · simp only [if_pos rfl, hb, if_true]
          exact Or.inr (Or.inr (Finset.card_erase_add_one hb).symm)
        · simp only [if_pos rfl, hb, if_false]
          exact Or.inr (Or.inl (Finset.card_insert_of_not_mem hb))
      · rw [if_neg hes, if_pos he]
        by_cases hu : u ∈ vs e
        · exact Or.inr (Or.inr (Finset.card_erase_add_one hu).symm)
        · rw [Finset.erase_eq_of_not_mem hu]
          exact Or.inl rfl
    · by_cases hex : ∃ e0 ∈ REACTIONS, e0 ≠ sel ∧ u ∈ vs e0
      · obtain ⟨e0, he0, hne0, hu0⟩ := hex
        apply filter_length_le_two reactions_nodup sel e0
        intro x hx hpx
        by_contra hcon
        push_neg at hcon
        have hunx : u ∉ vs x := by
          intro hux
          have h2 : 2 ≤ memCount vs u :=
            two_le_memCount vs u x e0 hx he0 hcon.2 hux hu0
          omega
        have hsame : (toggleVote vs u sel).1 x = vs x := by
          rw [toggleVote_fst_apply]
          rw [if_neg hcon.1, if_pos hx]
          exact Finset.erase_eq_of_not_mem hunx
        rw [hsame] at hpx
        simp at hpx
      · push_neg at hex
        have h1 : (REACTIONS.filter (fun e =>
            decide (((toggleVote vs u sel).1 e).card ≠ (vs e).card))).length ≤ 1 := by
          apply filter_length_le_one reactions_nodup sel
          intro x hx hpx
          by_contra hxs
          have hunx : u ∉ vs x := hex x hx hxs
          have hsame : (toggleVote vs u sel).1 x = vs x := by
            rw [toggleVote_fst_apply]
            rw [if_neg hxs, if_pos hx]
            exact Finset.erase_eq_of_not_mem hunx
          rw [hsame] at hpx
          simp at hpx
        omega

/-- C10 witness: voter 7 moves from "👎" to "👍" on a concrete post. -/
theorem c10_witness :
    ("👍" ∈ REACTIONS ∧ memCount vsDown7 7 ≤ 1)
  ∧ ((∀ e ∈ REACTIONS,
        ((toggleVote vsDown7 7 "👍").1 e).card = (vsDown7 e).card
      ∨ ((toggleVote vsDown7 7 "👍").1 e).card = (vsDown7 e).card + 1
      ∨ (vsDown7 e).card = ((toggleVote vsDown7 7 "👍").1 e).card + 1)
    ∧ (REACTIONS.filter (fun e =>
        decide (((toggleVote vsDown7 7 "👍").1 e).card ≠ (vsDown7 e).card))).length ≤ 2) :=
  ⟨⟨by decide, by decide⟩,
    (c10_toggle_frame vsDown7 7 "👍" [] "1_2").2.2 (by decide) (by decide)⟩

/-! ### The stable descending sort of prune_bot_data -/

theorem insertDesc_perm (p : Int × String) (l : List (Int × String)) :
    (insertDesc p l).Perm (p :: l) := by
  induction l with
  | nil => exact List.Perm.refl _
  | cons q rest ih =>
    unfold insertDesc
    by_cases h : p.1 ≤ q.1
    · rw [if_pos h]
      exact (ih.cons q).trans (List.Perm.swap p q rest)
    · rw [if_neg h]

theorem sortDescAux_perm (l : List (Int × String)) :
    ∀ acc, (l.foldl (fun a p => insertDesc p a) acc).Perm (acc ++ l) := by
  induction l with
  | nil => intro acc; simp
  | cons p rest ih =>
    intro acc
    rw [List.foldl_cons]
    have h1 := ih (insertDesc p acc)
    have h2 : (insertDesc p acc ++ rest).Perm (acc ++ p :: rest) := by
      refine ((insertDesc_perm p acc).append_right rest).trans ?_
      simpa using (@List.perm_middle _ p acc rest).symm
    exact h1.trans h2

theorem sortDesc_perm (l : List (Int × String)) : (sortDesc l).Perm l := by
  unfold sortDesc
  simpa using sortDescAux_perm l []

theorem insertDesc_sorted (p : Int × String) (l : List (Int × String))
    (h : SortedDesc l) : SortedDesc (insertDesc p l) := by
  induction l with
  | nil => exact List.pairwise_singleton _ _
  | cons q rest ih =>
    unfold SortedDesc at h
    rw [List.pairwise_cons] at h
    unfold insertDesc
    by_cases hpq : p.1 ≤ q.1
    · rw [if_pos hpq]
      unfold SortedDesc
      rw [List.pairwise_cons]
      constructor
      · intro b hb
        rcases List.mem_cons.mp ((insertDesc_perm p rest).mem_iff.mp hb) with h1 | h1
        · rw [h1]
          exact hpq
        · exact h.1 b h1
      · exact ih h.2
    · rw [if_neg hpq]
      push_neg at hpq
      unfold SortedDesc
      rw [List.pairwise_cons]
      constructor
      · intro b hb
        rcases List.mem_cons.mp hb with h1 | h1
        · rw [h1]
          exact le_of_lt hpq
        · exact le_trans (h.1 b h1) (le_of_lt hpq)
      · rw [List.pairwise_cons]
        exact ⟨h.1, h.2⟩

theorem sortDescAux_sorted (l : List (Int × String)) :
    ∀ acc, SortedDesc acc → SortedDesc (l.foldl (fun a p => insertDesc p a) acc) := by
  induction l with
  | nil => exact fun acc h => h
  | cons p rest ih =>
    exact fun acc h => ih _ (insertDesc_sorted p acc h)

theorem sortDesc_sorted (l : List (Int × String)) : SortedDesc (sortDesc l) :=
  sortDescAux_sorted l [] List.Pairwise.nil

/-- In a descending-sorted list with pairwise-distinct message ids, an
element lies beyond position `n` exactly when at least `n` elements carry a
strictly greater message id. -/
theorem mem_drop_iff_countGreater (L : List (Int × String)) :
    SortedDesc L → (L.map Prod.fst).Nodup →
    ∀ p : Int × String, p ∈ L → ∀ n : Nat,
      (p ∈ L.drop n ↔ n ≤ (L.filter (fun q => decide (p.1 < q.1))).length) := by
  induction L with
  | nil =>
    intro _ _ p hp
    exact absurd hp (List.not_mem_nil p)
  | cons q rest ih =>
    intro hs hnd p hp n
    unfold SortedDesc at hs
    rw [List.pairwise_cons] at hs
    rw [List.map_cons, List.nodup_cons] at hnd
    cases n with
    | zero => simp [hp]
    | succ m =>
      rw [List.drop_succ_cons]
      by_cases hpq : p = q
      · subst hpq
        have hnotin : p ∉ rest := fun hin => hnd.1 (List.mem_map_of_mem Prod.fst hin)
        have hlhs : ¬ p ∈ rest.drop m := fun hin => hnotin (List.mem_of_mem_drop hin)
        have hfr : rest.filter (fun b => decide (p.1 < b.1)) = [] := by
          rw [List.filter_eq_nil_iff]
          intro b hb
          simp only [decide_eq_true_eq, not_lt]
          exact hs.1 b hb
        rw [List.filter_cons]
        have hqq : (decide (p.1 < p.1)) = false := by simp
        simp only [hqq, Bool.false_eq_true, if_false, hfr, List.length_nil]
        constructor
        · intro hin
          exact absurd hin hlhs
        · intro hle
          exact absurd hle (by omega)
      · have hpr : p ∈ rest := (List.mem_cons.mp hp).resolve_left hpq
        have hlt : p.1 < q.1 := by
          have hle : p.1 ≤ q.1 := hs.1 p hpr
          have hne : p.1 ≠ q.1 := by
            intro he
            exact hnd.1 (he ▸ List.mem_map_of_mem Prod.fst hpr)
          exact lt_of_le_of_ne hle hne
        rw [List.filter_cons]
        have hd : (decide (p.1 < q.1)) = true := by simp [hlt]
        simp only [hd, if_true, List.length_cons]
        rw [ih hs.2 hnd.2 p hpr m]
        omega

/-! ### Characterizing the removal set of prune_bot_data -/

theorem mem_chatPostsFor (keys : List String) (c : Int) (mi : Int) (k : String) :
    (mi, k) ∈ chatPostsFor keys c ↔ (k ∈ keys ∧ parseKey k = some (c, mi)) := by
  unfold chatPostsFor
  rw [List.mem_filterMap]
  constructor
  · rintro ⟨a, ha, hfa⟩
    cases hpa : parseKey a with
    | none =>
      rw [hpa] at hfa
      simp at hfa
    | some pr =>
      obtain ⟨ci, mi2⟩ := pr
      rw [hpa] at hfa
      have hfa2 : (if ci = c then some (mi2, a) else none) = some (mi, k) := hfa
      by_cases hc : ci = c
      · rw [if_pos hc] at hfa2
        have h12 := Option.some.inj hfa2
        have hmi : mi2 = mi := congrArg Prod.fst h12
        have hak : a = k := congrArg Prod.snd h12
        subst hak
        subst hmi
        subst hc
        exact ⟨ha, hpa⟩
      · rw [if_neg hc] at hfa2
        exact absurd hfa2 (by simp)
  · rintro ⟨hk, hpk⟩
    refine ⟨k, hk, ?_⟩
    rw [hpk]
    show (if c = c then some (mi, k) else none) = some (mi, k)
    rw [if_pos rfl]

theorem mem_chatIdsOf (keys : List String) (c : Int) :
    c ∈ chatIdsOf keys ↔ ∃ k ∈ keys, ∃ mi, parseKey k = some (c, mi) := by
  unfold chatIdsOf
  rw [List.mem_dedup, List.mem_filterMap]
  constructor
  · rintro ⟨a, ha, hfa⟩
    cases hpa : parseKey a with
    | none =>
      rw [hpa] at hfa
      simp at hfa
    | some pr =>
      rw [hpa] at hfa
      have hfa2 : pr.1 = c := Option.some.inj hfa
      refine ⟨a, ha, pr.2, ?_⟩
      rw [hpa, ← hfa2]
  · rintro ⟨k, hk, mi, hpk⟩
    refine ⟨k, hk, ?_⟩
    rw [hpk]
    rfl

theorem snd_mem_chatPostsFor (keys : List String) (c : Int) (pr : Int × String)
    (h : pr ∈ chatPostsFor keys c) : parseKey pr.2 = some (c, pr.1) := by
  obtain ⟨mi, k⟩ := pr
  exact ((mem_chatPostsFor keys c mi k).mp h).2

theorem not_mem_keysToRemove_of_unparseable (ks : List String) (k : String)
    (hk : parseKey k = none) : k ∉ keysToRemove ks := by
  intro hmem
  unfold keysToRemove at hmem
  rw [List.mem_flatMap] at hmem
  obtain ⟨c, _, hkin⟩ := hmem
  by_cases hlen : MAX_POSTS_PER_CHAT < (sortDesc (chatPostsFor ks c)).length
  · rw [if_pos hlen] at hkin
    rw [List.mem_map] at hkin
    obtain ⟨pr, hprd, hprk⟩ := hkin
    have hprC : pr ∈ chatPostsFor ks c :=
      (sortDesc_perm _).subset (List.mem_of_mem_drop hprd)
    have := snd_mem_chatPostsFor ks c pr hprC
    rw [hprk, hk] at this
    exact absurd this (by simp)
  · rw [if_neg hlen] at hkin
    exact absurd hkin (List.not_mem_nil k)

/-- Membership in `keys_to_remove`, characterized order-independently: a
parseable key of chat `c` (with pairwise-distinct message ids in that chat)
is removed exactly when the chat has more than `MAX_POSTS_PER_CHAT` posts
and at least `MAX_POSTS_PER_CHAT` of them have a strictly greater message
id. -/
theorem mem_keysToRemove_iff (keys : List String) (k : String) (c mi : Int)
    (hp : parseKey k = some (c, mi)) (hk : k ∈ keys)
    (hnd : ((chatPostsFor keys c).map Prod.fst).Nodup) :
    (k ∈ keysToRemove keys ↔
      (MAX_POSTS_PER_CHAT < (chatPostsFor keys c).length ∧
       MAX_POSTS_PER_CHAT ≤ ((chatPostsFor keys c).filter
          (fun q => decide (mi < q.1))).length)) := by
  have hmemC : (mi, k) ∈ chatPostsFor keys c := (mem_chatPostsFor keys c mi k).mpr ⟨hk, hp⟩
  have hLp : (sortDesc (chatPostsFor keys c)).Perm (chatPostsFor keys c) :=
    sortDesc_perm _
  have hLs : SortedDesc (sortDesc (chatPostsFor keys c)) := sortDesc_sorted _
  have hLnd : ((sortDesc (chatPostsFor keys c)).map Prod.fst).Nodup :=
    ((hLp.map Prod.fst).nodup_iff).mpr hnd
  have hmemL : (mi, k) ∈ sortDesc (chatPostsFor keys c) := hLp.symm.subset hmemC
  have hlenEq : (sortDesc (chatPostsFor keys c)).length = (chatPostsFor keys c).length :=
    hLp.length_eq
  have hfilEq : ((sortDesc (chatPostsFor keys c)).filter
        (fun q => decide (mi < q.1))).length
      = ((chatPostsFor keys c).filter (fun q => decide (mi < q.1))).length :=
    (hLp.filter _).length_eq
  unfold keysToRemove
  rw [List.mem_flatMap]
  constructor
  · rintro ⟨c2, _, hkin⟩
    by_cases hlen2 : MAX_POSTS_PER_CHAT < (sortDesc (chatPostsFor keys c2)).length
    · rw [if_pos hlen2] at hkin
      rw [List.mem_map] at hkin
      obtain ⟨pr, hprd, hprk⟩ := hkin
      have hprC : pr ∈ chatPostsFor keys c2 :=
        (sortDesc_perm _).subset (List.mem_of_mem_drop hprd)
      have hpr2 := snd_mem_chatPostsFor keys c2 pr hprC
      rw [hprk, hp] at hpr2
      have hc2 : c2 = c := (congrArg Prod.fst (Option.some.inj hpr2)).symm
      have hmi2 : pr.1 = mi := (congrArg Prod.snd (Option.some.inj hpr2)).symm
      subst hc2
      have hpreq : pr = (mi, k) := Prod.ext hmi2 hprk
      rw [hpreq] at hprd
      rw [mem_drop_iff_countGreater _ hLs hLnd (mi, k) hmemL MAX_POSTS_PER_CHAT] at hprd
      refine ⟨?_, ?_⟩
      · rw [← hlenEq]
        exact hlen2
      · rw [← hfilEq]
        exact hprd
    · rw [if_neg hlen2] at hkin
      exact absurd hkin (List.not_mem_nil k)
  · rintro ⟨hlen, hcount⟩
    refine ⟨c, (mem_chatIdsOf keys c).mpr ⟨k, hk, mi, hp⟩, ?_⟩
    rw [if_pos (by rw [hlenEq]; exact hlen)]
    rw [List.mem_map]
    refine ⟨(mi, k), ?_, rfl⟩
    rw [mem_drop_iff_countGreater _ hLs hLnd (mi, k) hmemL MAX_POSTS_PER_CHAT]
    rw [hfilEq]
    exact hcount

theorem dictGet?_filter_out {α : Type} (l : Registry α) (rm : List String)
    (k : String) (h : k ∈ rm) :
    dictGet? (l.filter (fun p => !(decide (p.1 ∈ rm)))) k = none := by
  rw [dictGet?_eq_none_iff]
  intro p hp hpk
  have hkeep := List.of_mem_filter hp
  simp only [Bool.not_eq_true', decide_eq_false_iff_not] at hkeep
  exact hkeep (hpk ▸ h)

theorem dictGet?_filter_keep {α : Type} (l : Registry α) (rm : List String)
    (k : String) (h : k ∉ rm) :
    dictGet? (l.filter (fun p => !(decide (p.1 ∈ rm)))) k = dictGet? l k := by
  induction l with
  | nil => rfl
  | cons q l ih =>
    rw [List.filter_cons]
    by_cases hq : q.1 ∈ rm
    · have hqb : (!(decide (q.1 ∈ rm))) = false := by simp [hq]
      simp only [hqb, Bool.false_eq_true, if_false]
      have hqk : ¬ (q.1 = k) := by
        intro hqk
        exact h (hqk ▸ hq)
      rw [dictGet?_cons, if_neg hqk]
      exact ih
    · have hqb : (!(decide (q.1 ∈ rm))) = true := by simp [hq]
      simp only [hqb, if_true]
      rw [dictGet?_cons, dictGet?_cons]
      by_cases hqk : q.1 = k <;> simp [hqk, ih]

/-- C5: pruning removes, per chat, exactly the parseable keys whose message
ids are not among the chat's `MAX_POSTS_PER_CHAT` numerically highest (at
least that many posts of the chat have a strictly greater message id),
independently of registration order; removed keys lose both their vote sets
and their metadata, kept keys keep them. -/
theorem c5_pruning (ks : List String) (k : String) (c mi : Int)
    (reactions : Registry VoteSet) (meta : Registry PostMeta)
    (hp : parseKey k = some (c, mi)) (hk : k ∈ ks)
    (hnd : ((chatPostsFor ks c).map Prod.fst).Nodup)
    (hkeys : reactions.map Prod.fst = ks) :
    (k ∈ keysToRemove ks ↔
       (MAX_POSTS_PER_CHAT < (chatPostsFor ks c).length ∧
        MAX_POSTS_PER_CHAT ≤ ((chatPostsFor ks c).filter
           (fun q => decide (mi < q.1))).length))
  ∧ (∀ ks2, ks.Perm ks2 → (k ∈ keysToRemove ks ↔ k ∈ keysToRemove ks2))
  ∧ (k ∈ keysToRemove ks →
       dictGet? (prune_bot_data reactions meta).1 k = none
       ∧ dictGet? (prune_bot_data reactions meta).2 k = none)
  ∧ (k ∉ keysToRemove ks →
       dictGet? (prune_bot_data reactions meta).1 k = dictGet? reactions k
       ∧ dictGet? (prune_bot_data reactions meta).2 k = dictGet? meta k) := by
  have hchar := mem_keysToRemove_iff ks k c mi hp hk hnd
  refine ⟨hchar, ?_, ?_, ?_⟩
  · intro ks2 hperm
    have hpostsPerm : (chatPostsFor ks c).Perm (chatPostsFor ks2 c) := by
      unfold chatPostsFor
      exact hperm.filterMap _
    have hnd2 : ((chatPostsFor ks2 c).map Prod.fst).Nodup :=
      ((hpostsPerm.map Prod.fst).nodup_iff).mp hnd
    have hchar2 := mem_keysToRemove_iff ks2 k c mi hp (hperm.subset hk) hnd2
    rw [hchar, hchar2, hpostsPerm.length_eq, (hpostsPerm.filter _).length_eq]
  · intro hin
    unfold prune_bot_data
    rw [hkeys]
    by_cases hempty : (keysToRemove ks).isEmpty = true
    · rw [List.isEmpty_iff] at hempty
      rw [hempty] at hin
      exact absurd hin (List.not_mem_nil k)
    · rw [if_neg hempty]
      exact ⟨dictGet?_filter_out reactions _ k hin, dictGet?_filter_out meta _ k hin⟩
  · intro hout
    unfold prune_bot_data
    rw [hkeys]
    by_cases hempty : (keysToRemove ks).isEmpty = true
    · rw [if_pos hempty]
      exact ⟨rfl, rfl⟩
    · rw [if_neg hempty]
      exact ⟨dictGet?_filter_keep reactions _ k hout, dictGet?_filter_keep meta _ k hout⟩

/-- C5 witness: chat 5 with message ids 1..60 — message id 3 is outside the
50 highest (11..60), so key "5_3" is removed. -/
theorem c5_witness :
    (parseKey "5_3" = some (5, 3) ∧ "5_3" ∈ keys60)
  ∧ ("5_3" ∈ keysToRemove keys60 ↔
       (MAX_POSTS_PER_CHAT < (chatPostsFor keys60 5).length ∧
        MAX_POSTS_PER_CHAT ≤ ((chatPostsFor keys60 5).filter
           (fun q => decide ((3 : Int) < q.1))).length)) :=
  ⟨⟨by decide, by decide⟩,
    (c5_pruning keys60 "5_3" 5 3 reactions60 meta60 (by decide) (by decide) (by decide)
      (by unfold reactions60; rw [List.map_map]; exact List.map_id keys60)).1⟩

/-- C8: a persisted key that does not parse as `chatId_messageId` is skipped
by pruning — it contributes to no chat's post list, its presence changes
nothing about which well-formed keys get removed, and it is itself never
removed. -/
theorem c8_malformed_keys (k : String) (l1 l2 : List String)
    (hk : parseKey k = none) :
    (∀ c, chatPostsFor (l1 ++ k :: l2) c = chatPostsFor (l1 ++ l2) c)
  ∧ chatIdsOf (l1 ++ k :: l2) = chatIdsOf (l1 ++ l2)
  ∧ keysToRemove (l1 ++ k :: l2) = keysToRemove (l1 ++ l2)
  ∧ (∀ ks, k ∉ keysToRemove ks) := by
  have hposts : ∀ c, chatPostsFor (l1 ++ k :: l2) c = chatPostsFor (l1 ++ l2) c := by
    intro c
    unfold chatPostsFor
    rw [List.filterMap_append, List.filterMap_append, List.filterMap_cons]
    have hfk : (match parseKey k with
        | some (ci, mi) => if ci = c then some (mi, k) else none
        | none => none) = (none : Option (Int × String)) := by
      rw [hk]
    rw [hfk]
  have hids : chatIdsOf (l1 ++ k :: l2) = chatIdsOf (l1 ++ l2) := by
    unfold chatIdsOf
    rw [List.filterMap_append, List.filterMap_append, List.filterMap_cons]
    have hfk : (parseKey k).map Prod.fst = none := by
      rw [hk]
      rfl
    rw [hfk]
  refine ⟨hposts, hids, ?_, fun ks => not_mem_keysToRemove_of_unparseable ks k hk⟩
  unfold keysToRemove
  rw [hids]
  have hfun : (fun c => if MAX_POSTS_PER_CHAT < (sortDesc (chatPostsFor (l1 ++ k :: l2) c)).length
        then ((sortDesc (chatPostsFor (l1 ++ k :: l2) c)).drop MAX_POSTS_PER_CHAT).map Prod.snd
        else [])
      = (fun c => if MAX_POSTS_PER_CHAT < (sortDesc (chatPostsFor (l1 ++ l2) c)).length
        then ((sortDesc (chatPostsFor (l1 ++ l2) c)).drop MAX_POSTS_PER_CHAT).map Prod.snd
        else []) := by
    funext c
    rw [hposts c]
  rw [hfun]

/-- C8 witness: an unparseable key between two well-formed ones. -/
theorem c8_witness :
    parseKey "nounderscore" = none
  ∧ ((∀ c, chatPostsFor (["1_1"] ++ "nounderscore" :: ["1_2"]) c
        = chatPostsFor (["1_1"] ++ ["1_2"]) c)
     ∧ chatIdsOf (["1_1"] ++ "nounderscore" :: ["1_2"]) = chatIdsOf (["1_1"] ++ ["1_2"])
     ∧ keysToRemove (["1_1"] ++ "nounderscore" :: ["1_2"])
        = keysToRemove (["1_1"] ++ ["1_2"])
     ∧ (∀ ks, "nounderscore" ∉ keysToRemove ks)) :=
  ⟨by decide, c8_malformed_keys "nounderscore" ["1_1"] ["1_2"] (by decide)⟩

end PostReactionBot
